import Mathlib

/-!
Shallow embedding of the header-detection and column-filtering core of
`src/app.py` (excel-automation).

Python strings are modelled as `List Char`.  The two Unicode library
functions the code calls, `unicodedata.normalize("NFKC", ·)` and
`str.lower`, are passed to every definition as explicit parameters
`nf` and `lo`; concrete statements instantiate them with `asciiNFKC`
and `asciiLower`, which agree with the library functions on the ASCII
inputs appearing in those statements (NFKC is the identity on ASCII,
and `str.lower` lowercases exactly the letters `A`..`Z` there).
-/

namespace ExcelApp

/-- A text cell: a Python string modelled as its list of characters. -/
abbrev Cell := List Char

/-- The characters Python `str.strip()` and the regex class `\s` treat as
whitespace (the `str.isspace` set). -/
def isPySpace (c : Char) : Bool :=
  (9 ≤ c.toNat && c.toNat ≤ 13) || (28 ≤ c.toNat && c.toNat ≤ 31) ||
  c.toNat == 32 || c.toNat == 133 || c.toNat == 160 || c.toNat == 0x1680 ||
  (0x2000 ≤ c.toNat && c.toNat ≤ 0x200a) || c.toNat == 0x2028 || c.toNat == 0x2029 ||
  c.toNat == 0x202f || c.toNat == 0x205f || c.toNat == 0x3000

/-- The character class of `re.match(r"^[A-Za-z0-9]", s)` (src/app.py line 42). -/
def isAsciiAlnum (c : Char) : Bool :=
  ('A' ≤ c && c ≤ 'Z') || ('a' ≤ c && c ≤ 'z') || ('0' ≤ c && c ≤ '9')

/-- Characters kept by `re.sub(r"[^a-z0-9 ]+", "", s)` (src/app.py line 48). -/
def isKeepChar (c : Char) : Bool :=
  ('a' ≤ c && c ≤ 'z') || ('0' ≤ c && c ≤ '9') || c == ' '

/-- The character class of `re.sub(r"[\s._\-]+", " ", s)` (src/app.py line 47). -/
def isSepChar (c : Char) : Bool :=
  isPySpace c || c == '.' || c == '_' || c == '-'

/-- One character of `s.replace(" ", " ")` (src/app.py line 45). -/
def nbspToSpace (c : Char) : Char := if c == '\u00A0' then ' ' else c

/-- Python `s.strip()`: drop leading and trailing whitespace. -/
def pyStrip (s : List Char) : List Char :=
  ((s.dropWhile isPySpace).reverse.dropWhile isPySpace).reverse

/-- Worker for `collapseRuns`; the flag records whether the previous
character belonged to the class `p` (so the run was already replaced). -/
def collapseAux (p : Char → Bool) (r : Char) : Bool → List Char → List Char
  | _, [] => []
  | inRun, c :: cs =>
    if p c then
      (if inRun then collapseAux p r true cs else r :: collapseAux p r true cs)
    else c :: collapseAux p r false cs

/-- Model of `re.sub` of the one-or-more class `p` by the single character `r`:
each maximal run of `p`-characters is replaced by one `r`. -/
def collapseRuns (p : Char → Bool) (r : Char) (l : List Char) : List Char :=
  collapseAux p r false l

/-- The function `norm` (src/app.py lines 38-50): NFKC-normalize and strip; map any
string that is empty or does not start with an ASCII alphanumeric to the
empty string; otherwise replace non-breaking spaces, lowercase, collapse
whitespace/period/underscore/hyphen runs to one space, drop every character
outside `[a-z0-9 ]`, and collapse whitespace runs to one space.  Note the
code applies no final strip.  `nf` and `lo` stand for the library
functions NFKC and `str.lower`. -/
def norm (nf lo : List Char → List Char) (s : List Char) : List Char :=
  match pyStrip (nf s) with
  | [] => []
  | c :: rest =>
    if isAsciiAlnum c then
      collapseRuns isPySpace ' '
        ((collapseRuns isSepChar ' ' (lo ((c :: rest).map nbspToSpace))).filter isKeepChar)
    else []

/-- Model of `unicodedata.normalize("NFKC", ·)` restricted to ASCII strings, where
NFKC is the identity; used to instantiate `nf` in concrete statements. -/
def asciiNFKC (s : List Char) : List Char := s

/-- Python `str.lower` restricted to ASCII strings, where it lowercases
exactly `A`..`Z`; used to instantiate `lo` in concrete statements. -/
def asciiLower (s : List Char) : List Char := s.map Char.toLower

/-- Convenience: the character list of a string literal. -/
def toCell (s : String) : Cell := s.data

/-- Width of the rectangular frame pandas materializes: the maximum row
length of the raw grid. -/
def maxWidth (g : List (List Cell)) : Nat := g.foldr (fun r m => max r.length m) 0

/-- Right-pad a row with empty-text cells to width `w` (never truncates). -/
def padTo (w : Nat) (r : List Cell) : List Cell := r ++ List.replicate (w - r.length) []

/-- Model of the external tabular reader plus `df.fillna("")`
(src/app.py lines 74-82, spec section 6): the file is materialized as a
rectangular frame in which every row is right-padded with empty-text
cells to the maximal row length, and blank/missing cells read as the
empty string. -/
def toRect (g : List (List Cell)) : List (List Cell) := g.map (padTo (maxWidth g))

/-- The membership test `norm(v) in wanted_norm` (src/app.py lines 89 and 101). -/
def wantedHit (nf lo : List Char → List Char) (wanted : List Cell) (c : Cell) : Bool :=
  wanted.contains (norm nf lo c)

/-- The row score `sum(1 for v in vals if norm(v) in wanted_norm)` (line 89). -/
def rowScore (nf lo : List Char → List Char) (wanted : List Cell) (row : List Cell) : Nat :=
  (row.filter (wantedHit nf lo wanted)).length

/-- One iteration of the loop of lines 90-91: strict `>` against the best
score seen so far. -/
def bestStep (f : Nat → Nat) (b : Int × Int) (i : Nat) : Int × Int :=
  if (f i : Int) > b.2 then ((i : Int), (f i : Int)) else b

/-- The loop of lines 84-91, started from `best_idx = -1, best_score = -1`. -/
def bestRow (f : Nat → Nat) (n : Nat) : Int × Int :=
  (List.range n).foldl (bestStep f) (-1, -1)

/-- Header scan of lines 84-91: the best (index, score) pair over the first
`min(300, len(df))` rows. -/
def detectHeader (nf lo : List Char → List Char) (wanted : List Cell)
    (g : List (List Cell)) : Int × Int :=
  bestRow (fun i => rowScore nf lo wanted (g.getD i [])) (min 300 g.length)

/-- The list `keep = [c for c in body.columns if nm[c] in wanted_norm]`
(src/app.py lines 100-101). -/
def keepLabels (nf lo : List Char → List Char) (wanted : List Cell)
    (header : List Cell) : List Cell :=
  header.filter (wantedHit nf lo wanted)

/-- Column positions selected by `body[keep]` (line 106) under pandas
label-based selection: each entry of `keep` selects every position whose
header label equals it, so a duplicated header label selects all of its
occurrences once per entry. -/
def selIdxs (nf lo : List Char → List Char) (wanted : List Cell)
    (header : List Cell) : List Nat :=
  (keepLabels nf lo wanted header).flatMap
    (fun l => (List.range header.length).filter (fun j => header.getD j [] == l))

/-- The typed failures `process_excel` can raise (`ValueError` with its
message, src/app.py lines 94 and 104). -/
inductive PyError
  | valueError (msg : String)
deriving DecidableEq

/-- The produced table: retained header labels and the body rows projected
to them. -/
structure Filtered where
  cols : List Cell
  rows : List (List Cell)
deriving DecidableEq

/-- The function `process_excel` (src/app.py lines 73-106): rectangularize, scan the
first 300 rows for the best-scoring header, fail if no row was scanned,
select columns whose header label normalizes into the allow-list, fail if
none, and project the body rows. -/
def process_excel (nf lo : List Char → List Char) (wanted : List Cell)
    (raw : List (List Cell)) : Except PyError Filtered :=
  let df := toRect raw
  let best := detectHeader nf lo wanted df
  if best.1 < 0 then
    .error (.valueError "Could not find header row matching allow-list")
  else
    let headerVals := df.getD best.1.toNat []
    let body := df.drop (best.1.toNat + 1)
    if (keepLabels nf lo wanted headerVals).isEmpty then
      .error (.valueError "No matching columns found")
    else
      let idxs := selIdxs nf lo wanted headerVals
      .ok ⟨idxs.map (fun j => headerVals.getD j []),
           body.map (fun r => idxs.map (fun j => r.getD j []))⟩

/-- The header row `process_excel` selects (line 96): row `best_idx` of the
rectangular frame. -/
def chosenHeader (nf lo : List Char → List Char) (wanted : List Cell)
    (raw : List (List Cell)) : List Cell :=
  (toRect raw).getD (detectHeader nf lo wanted (toRect raw)).1.toNat []

/-- Python `new_col.split(",")` (src/app.py line 176). -/
def splitOnComma : List Char → List (List Char)
  | [] => [[]]
  | c :: cs =>
    match splitOnComma cs with
    | [] => [[c]]
    | t :: ts => if c == ',' then [] :: t :: ts else (c :: t) :: ts

/-- The Add-Column-Permanently handler (src/app.py lines 176-183): split the
input on commas, strip and drop blanks, then append each name whose
canonical key is not among the keys of the previously stored names.
`existing_norms` is computed once, before the loop.  Returns the final
`cols` list and the `added` list. -/
def addColumns (nf lo : List Char → List Char) (stored : List Cell)
    (input : Cell) : List Cell × List Cell :=
  let inputCols := ((splitOnComma input).map pyStrip).filter (fun c => !c.isEmpty)
  let existing := stored.map (norm nf lo)
  inputCols.foldl
    (fun acc col =>
      if existing.contains (norm nf lo col) then acc
      else (acc.1 ++ [col], acc.2 ++ [col]))
    (stored, ([] : List Cell))

/-- Python string `<` comparison: lexicographic by code point. -/
def pyStrLe : List Char → List Char → Bool
  | [], _ => true
  | _ :: _, [] => false
  | a :: as, b :: bs =>
    if a.toNat < b.toNat then true
    else if b.toNat < a.toNat then false
    else pyStrLe as bs

/-- Insertion into a `pyStrLe`-sorted list. -/
def insertSorted (a : Cell) : List Cell → List Cell
  | [] => [a]
  | b :: bs => if pyStrLe a b then a :: b :: bs else b :: insertSorted a bs

/-- Python `sorted` on strings (insertion sort by code-point order). -/
def pySorted (l : List Cell) : List Cell := l.foldr insertSorted []

/-- The function `save_allowed_columns` (src/app.py lines 62-68): the value persisted is
`sorted(set(cols))` — exact raw duplicates collapsed, then sorted. -/
def save_allowed_columns (cols : List Cell) : List Cell := pySorted cols.dedup

/-- The reference normalization algorithm transcribed from spec section 4.1,
steps 1-7: NFKC-compose, replace non-breaking spaces by spaces, trim,
lowercase, collapse whitespace/period/underscore/hyphen runs to one space,
remove every character outside `[a-z0-9 ]`, collapse space runs to one and
trim again. -/
def specNorm (nf lo : List Char → List Char) (s : List Char) : List Char :=
  pyStrip (collapseRuns isPySpace ' '
    ((collapseRuns isSepChar ' '
        (lo (pyStrip ((nf s).map nbspToSpace)))).filter isKeepChar))

/-- The reference algorithm amended to what the code does: after NFKC,
non-breaking-space replacement and trim, a string that is empty or does
not start with an ASCII alphanumeric maps to the empty key; the final
step collapses whitespace runs but does not trim again. -/
def amendedNorm (nf lo : List Char → List Char) (s : List Char) : List Char :=
  match pyStrip ((nf s).map nbspToSpace) with
  | [] => []
  | c :: rest =>
    if isAsciiAlnum c then
      collapseRuns isPySpace ' '
        ((collapseRuns isSepChar ' ' (lo (c :: rest))).filter isKeepChar)
    else []

/-! ### Helper lemmas about the normalizer -/

lemma isPySpace_nbspToSpace (c : Char) : isPySpace (nbspToSpace c) = isPySpace c := by
  by_cases h : c = ' '
  · subst h; decide
  · simp [nbspToSpace, h]

lemma isAsciiAlnum_nbspToSpace (c : Char) : isAsciiAlnum (nbspToSpace c) = isAsciiAlnum c := by
  by_cases h : c = ' '
  · subst h; decide
  · simp [nbspToSpace, h]

lemma pyStrip_map_nbsp (t : List Char) :
    pyStrip (t.map nbspToSpace) = (pyStrip t).map nbspToSpace := by
  have hp : isPySpace ∘ nbspToSpace = isPySpace := funext isPySpace_nbspToSpace
  unfold pyStrip
  rw [List.dropWhile_map, hp, ← List.map_reverse, List.dropWhile_map, hp, ← List.map_reverse]

/-- C1 counterexample: `norm` disagrees with the seven-step reference
algorithm of the spec.  A label whose first character is punctuation is
mapped to the empty key instead of being processed by the steps
(`"(x)"` gives `""` against the reference value `"x"`), and the missing
final trim leaves a trailing space (`"A."` gives `"a "` against the
reference value `"a"`, so the output can end in whitespace). -/
theorem norm_spec_algorithm_counterexample :
    norm asciiNFKC asciiLower (toCell "(x)") ≠ specNorm asciiNFKC asciiLower (toCell "(x)") ∧
    norm asciiNFKC asciiLower (toCell "A.") ≠ specNorm asciiNFKC asciiLower (toCell "A.") ∧
    norm asciiNFKC asciiLower (toCell "A.") = toCell "a " := by
  decide

/-- C1 (amended): for every input string and any NFKC/lower functions,
`norm` equals the reference algorithm amended in exactly two points: after
NFKC composing, non-breaking-space replacement and trimming, a string that
is empty or does not start with an ASCII alphanumeric maps to the empty
key, and the final step collapses whitespace runs without trimming again
(so the output may end in a single space).  In particular `norm` is total
and maps every input to some string. -/
theorem norm_eq_amendedNorm (nf lo : List Char → List Char) (s : List Char) :
    norm nf lo s = amendedNorm nf lo s := by
  unfold norm amendedNorm
  rw [pyStrip_map_nbsp]
  cases h : pyStrip (nf s) with
  | nil => rfl
  | cons c rest =>
    by_cases ha : isAsciiAlnum c
    · simp [List.map_cons, isAsciiAlnum_nbspToSpace, ha]
    · simp [List.map_cons, isAsciiAlnum_nbspToSpace, ha]

/-- Witness for C1 at a concrete input. -/
theorem norm_eq_amendedNorm_witness :
    norm asciiNFKC asciiLower (toCell "Gr. WT")
      = amendedNorm asciiNFKC asciiLower (toCell "Gr. WT") :=
  norm_eq_amendedNorm asciiNFKC asciiLower (toCell "Gr. WT")

/-- C2 (code bug): normalization is not idempotent.  The code omits the
final trim the spec prescribes, so `norm "A." = "a "` carries a trailing
space, while a second application strips it: `norm (norm "A.") = "a"`. -/
theorem norm_not_idempotent_at_trailing_dot :
    norm asciiNFKC asciiLower (toCell "A.") = toCell "a " ∧
    norm asciiNFKC asciiLower (norm asciiNFKC asciiLower (toCell "A."))
      ≠ norm asciiNFKC asciiLower (toCell "A.") := by
  decide

/-! ### The header scan -/

lemma bestStep_eq (f : Nat → Nat) (a b : Int) (i : Nat) :
    bestStep f (a, b) i = if (f i : Int) > b then ((i : Int), (f i : Int)) else (a, b) := rfl

lemma bestStep_congr (f g : Nat → Nat) (b : Int × Int) (i : Nat) (h : f i = g i) :
    bestStep f b i = bestStep g b i := by
  unfold bestStep
  rw [h]

lemma bestRow_zero (f : Nat → Nat) : bestRow f 0 = (-1, -1) := rfl

lemma bestRow_succ (f : Nat → Nat) (n : Nat) :
    bestRow f (n + 1) = bestStep f (bestRow f n) n := by
  unfold bestRow
  rw [List.range_succ, List.foldl_append, List.foldl_cons, List.foldl_nil]

lemma bestRow_spec (f : Nat → Nat) (n : Nat) (hn : 0 < n) :
    ∃ i : Nat, bestRow f n = ((i : Int), (f i : Int)) ∧ i < n ∧
      (∀ j, j < n → f j ≤ f i) ∧ (∀ j, j < i → f j < f i) := by
  induction n with
  | zero => omega
  | succ m ih =>
    rcases Nat.eq_zero_or_pos m with h0 | hm
    · subst h0
      refine ⟨0, ?_, by omega, ?_, by omega⟩
      · rw [bestRow_succ, bestRow_zero, bestStep_eq, if_pos (by omega)]
      · intro j hj
        have : j = 0 := by omega
        subst this
        exact le_refl _
    · obtain ⟨i, hEq, hlt, hmax, hstrict⟩ := ih hm
      rw [bestRow_succ, hEq, bestStep_eq]
      by_cases hc : f i < f m
      · rw [if_pos (by omega)]
        refine ⟨m, rfl, by omega, ?_, ?_⟩
        · intro j hj
          rcases Nat.lt_succ_iff_lt_or_eq.mp hj with h | h
          · exact le_of_lt (lt_of_le_of_lt (hmax j h) hc)
          · subst h; exact le_refl _
        · intro j hj
          exact lt_of_le_of_lt (hmax j hj) hc
      · rw [if_neg (by omega)]
        refine ⟨i, rfl, by omega, ?_, hstrict⟩
        intro j hj
        rcases Nat.lt_succ_iff_lt_or_eq.mp hj with h | h
        · exact hmax j h
        · subst h; omega

lemma bestRow_congr (f g : Nat → Nat) (n : Nat) (h : ∀ i, i < n → f i = g i) :
    bestRow f n = bestRow g n := by
  induction n with
  | zero => rfl
  | succ m ih =>
    rw [bestRow_succ, bestRow_succ, ih (fun i hi => h i (by omega)),
      bestStep_congr f g _ m (h m (by omega))]

/-- C3: on a non-empty grid the header scan returns the first row of
maximal score within the first `min(300, row_count)` rows — the score is
maximal there, every earlier row scores strictly less, and the result
depends only on the first 300 rows. -/
theorem detectHeader_first_max_row (nf lo : List Char → List Char) (wanted : List Cell)
    (g g' : List (List Cell)) (hg : g ≠ []) :
    (∃ i : Nat,
      detectHeader nf lo wanted g
        = ((i : Int), (rowScore nf lo wanted (g.getD i []) : Int)) ∧
      i < min 300 g.length ∧
      (∀ j, j < min 300 g.length →
        rowScore nf lo wanted (g.getD j []) ≤ rowScore nf lo wanted (g.getD i [])) ∧
      (∀ j, j < i → rowScore nf lo wanted (g.getD j []) < rowScore nf lo wanted (g.getD i []))) ∧
    (g.take 300 = g'.take 300 →
      detectHeader nf lo wanted g = detectHeader nf lo wanted g') := by
  constructor
  · have hlen : 0 < g.length := List.length_pos.mpr hg
    have hn : 0 < min 300 g.length := by omega
    exact bestRow_spec _ _ hn
  · intro ht
    unfold detectHeader
    have hmin : min 300 g.length = min 300 g'.length := by
      have := congrArg List.length ht
      simpa [List.length_take] using this
    rw [← hmin]
    apply bestRow_congr
    intro i hi
    have hi300 : i < 300 := by omega
    have hget : g.get? i = g'.get? i := by
      have h1 : (g.take 300).get? i = g.get? i := List.get?_take hi300
      have h2 : (g'.take 300).get? i = g'.get? i := List.get?_take hi300
      rw [← h1, ← h2, ht]
    rw [List.getD_eq_getD_get?, List.getD_eq_getD_get?, hget]

/-- Witness for C3 at a concrete grid. -/
theorem detectHeader_first_max_row_witness :
    (∃ i : Nat,
      detectHeader asciiNFKC asciiLower [toCell "a"] [[toCell "a"]]
        = ((i : Int), (rowScore asciiNFKC asciiLower [toCell "a"]
            ([[toCell "a"]].getD i []) : Int)) ∧
      i < min 300 [[toCell "a"]].length ∧
      (∀ j, j < min 300 [[toCell "a"]].length →
        rowScore asciiNFKC asciiLower [toCell "a"] ([[toCell "a"]].getD j [])
          ≤ rowScore asciiNFKC asciiLower [toCell "a"] ([[toCell "a"]].getD i [])) ∧
      (∀ j, j < i →
        rowScore asciiNFKC asciiLower [toCell "a"] ([[toCell "a"]].getD j [])
          < rowScore asciiNFKC asciiLower [toCell "a"] ([[toCell "a"]].getD i []))) ∧
    ([[toCell "a"]].take 300 = [[toCell "a"]].take 300 →
      detectHeader asciiNFKC asciiLower [toCell "a"] [[toCell "a"]]
        = detectHeader asciiNFKC asciiLower [toCell "a"] [[toCell "a"]]) :=
  detectHeader_first_max_row asciiNFKC asciiLower [toCell "a"]
    [[toCell "a"]] [[toCell "a"]] (by decide)

/-! ### Error behaviour of process_excel -/

lemma detectHeader_neg_iff (nf lo : List Char → List Char) (wanted : List Cell)
    (g : List (List Cell)) : (detectHeader nf lo wanted g).1 < 0 ↔ g = [] := by
  constructor
  · intro h
    by_contra hg
    have hlen : 0 < g.length := List.length_pos.mpr hg
    obtain ⟨i, hEq, -, -, -⟩ :=
      bestRow_spec (fun i => rowScore nf lo wanted (g.getD i [])) (min 300 g.length) (by omega)
    unfold detectHeader at h
    rw [hEq] at h
    simp at h
    omega
  · intro h
    subst h
    have : detectHeader nf lo wanted [] = (-1, -1) := rfl
    rw [this]
    decide

lemma toRect_eq_nil_iff (g : List (List Cell)) : toRect g = [] ↔ g = [] := by
  unfold toRect
  simp

lemma keepLabels_empty_wanted (nf lo : List Char → List Char) (header : List Cell) :
    keepLabels nf lo [] header = [] := by
  refine List.filter_eq_nil_iff.mpr (fun a _ => ?_)
  simp [wantedHit]

/-- C7: the header scan fails (raising the "Could not find header row"
ValueError) exactly when the grid has zero rows; on a non-empty grid a
header index is always selected, and with an empty allow-list every score
is zero and the tie-break selects row 0. -/
theorem process_excel_empty_input_iff (nf lo : List Char → List Char) (wanted : List Cell)
    (raw : List (List Cell)) :
    (process_excel nf lo wanted raw
        = .error (.valueError "Could not find header row matching allow-list") ↔ raw = []) ∧
    ((detectHeader nf lo wanted (toRect raw)).1 < 0 ↔ raw = []) ∧
    (wanted = [] → raw ≠ [] → (detectHeader nf lo wanted (toRect raw)).1 = 0) := by
  have hneg : (detectHeader nf lo wanted (toRect raw)).1 < 0 ↔ raw = [] :=
    (detectHeader_neg_iff nf lo wanted (toRect raw)).trans (toRect_eq_nil_iff raw)
  refine ⟨?_, hneg, ?_⟩
  · unfold process_excel
    by_cases hb : (detectHeader nf lo wanted (toRect raw)).1 < 0
    · rw [if_pos hb]
      simp only [true_iff, iff_true]
      exact hneg.mp hb
    · rw [if_neg hb]
      constructor
      · intro h
        by_cases hk : (keepLabels nf lo wanted
            ((toRect raw).getD (detectHeader nf lo wanted (toRect raw)).1.toNat [])).isEmpty
        · rw [if_pos hk] at h
          simp only [Except.error.injEq, PyError.valueError.injEq] at h
          exact absurd h (by decide)
        · rw [if_neg hk] at h
          exact absurd h (by simp)
      · intro h
        exact absurd h (fun h => hb (hneg.mpr h))
  · intro hw hraw
    have hlen : 0 < (toRect raw).length := by
      have := (toRect_eq_nil_iff raw).not.mpr hraw
      exact List.length_pos.mpr this
    obtain ⟨i, hEq, -, -, hstrict⟩ :=
      bestRow_spec (fun i => rowScore nf lo wanted ((toRect raw).getD i []))
        (min 300 (toRect raw).length) (by omega)
    have hzero : ∀ j, rowScore nf lo wanted ((toRect raw).getD j []) = 0 := by
      intro j
      subst hw
      simp [rowScore, wantedHit]
    have hi0 : i = 0 := by
      by_contra hne
      have := hstrict 0 (by omega)
      rw [hzero 0, hzero i] at this
      omega
    unfold detectHeader
    rw [hEq, hi0]
    rfl

/-- Witness for C7: the empty grid raises the empty-input ValueError, and
on a non-empty grid with an empty allow-list row 0 is selected. -/
theorem process_excel_empty_input_iff_witness :
    process_excel asciiNFKC asciiLower [] ([] : List (List Cell))
        = .error (.valueError "Could not find header row matching allow-list") ∧
    (detectHeader asciiNFKC asciiLower [] (toRect [[toCell "Z"]])).1 = 0 :=
  ⟨(process_excel_empty_input_iff asciiNFKC asciiLower [] []).1.mpr rfl,
   (process_excel_empty_input_iff asciiNFKC asciiLower [] [[toCell "Z"]]).2.2 rfl
     (by decide)⟩

/-- C6: the "No matching columns found" ValueError is raised exactly when
the grid is non-empty (so a header row was selected) and no cell of the
selected header row normalizes into the allow-list; an empty allow-list
always yields an empty keep list, and whenever at least one position
matches a table is produced. -/
theorem process_excel_no_matching_columns_iff (nf lo : List Char → List Char)
    (wanted : List Cell) (raw : List (List Cell)) :
    (process_excel nf lo wanted raw = .error (.valueError "No matching columns found")
      ↔ raw ≠ [] ∧ keepLabels nf lo wanted (chosenHeader nf lo wanted raw) = []) ∧
    (wanted = [] → keepLabels nf lo wanted (chosenHeader nf lo wanted raw) = []) ∧
    (raw ≠ [] → keepLabels nf lo wanted (chosenHeader nf lo wanted raw) ≠ [] →
      ∃ t, process_excel nf lo wanted raw = .ok t) := by
  have hneg : (detectHeader nf lo wanted (toRect raw)).1 < 0 ↔ raw = [] :=
    (detectHeader_neg_iff nf lo wanted (toRect raw)).trans (toRect_eq_nil_iff raw)
  refine ⟨?_, fun hw => hw ▸ keepLabels_empty_wanted nf lo _, ?_⟩
  · unfold process_excel
    by_cases hb : (detectHeader nf lo wanted (toRect raw)).1 < 0
    · rw [if_pos hb]
      constructor
      · intro h
        simp only [Except.error.injEq, PyError.valueError.injEq] at h
        exact absurd h (by decide)
      · rintro ⟨hraw, -⟩
        exact absurd (hneg.mp hb) hraw
    · rw [if_neg hb]
      have hraw : raw ≠ [] := fun h => hb (hneg.mpr h)
      by_cases hk : (keepLabels nf lo wanted
          ((toRect raw).getD (detectHeader nf lo wanted (toRect raw)).1.toNat [])).isEmpty
      · rw [if_pos hk]
        simp only [true_iff, iff_true]
        exact ⟨hraw, List.isEmpty_iff.mp hk⟩
      · rw [if_neg hk]
        constructor
        · intro h
          exact absurd h (by simp)
        · rintro ⟨-, hkeep⟩
          exact absurd (List.isEmpty_iff.mpr hkeep) hk
  · intro hraw hkeep
    unfold chosenHeader at hkeep
    simp only [process_excel]
    rw [if_neg (fun h => hraw (hneg.mp h)),
      if_neg (fun h => hkeep (List.isEmpty_iff.mp h))]
    exact ⟨_, rfl⟩

/-- Witness for C6: a 1x1 grid whose only label matches yields a table. -/
theorem process_excel_no_matching_columns_iff_witness :
    ∃ t, process_excel asciiNFKC asciiLower [toCell "a"] [[toCell "A"]] = .ok t :=
  (process_excel_no_matching_columns_iff asciiNFKC asciiLower
    [toCell "a"] [[toCell "A"]]).2.2 (by decide) (by decide)

/-- C4 (code bug): with the duplicated header label "A" matching the
allow-list, pandas label selection multiplies the duplicates instead of
preserving them: `body[keep]` yields four columns (each entry of the keep
list selects both matching positions), not one column per kept header
position. -/
theorem process_excel_duplicate_labels_multiplied :
    process_excel asciiNFKC asciiLower [toCell "a"]
        [[toCell "A", toCell "A"], [toCell "1", toCell "2"]]
      = .ok ⟨[toCell "A", toCell "A", toCell "A", toCell "A"],
             [[toCell "1", toCell "2", toCell "1", toCell "2"]]⟩ ∧
    selIdxs asciiNFKC asciiLower [toCell "a"] [toCell "A", toCell "A"] = [0, 1, 0, 1] := by
  exact ⟨rfl, rfl⟩

/-! ### Padding semantics of the rectangular frame -/

lemma maxWidth_ge (g : List (List Cell)) : ∀ r ∈ g, r.length ≤ maxWidth g := by
  induction g with
  | nil => intro r hr; cases hr
  | cons x t ih =>
    intro r hr
    rcases List.mem_cons.mp hr with h | h
    · subst h
      exact le_max_left _ _
    · exact le_trans (ih r h) (le_max_right _ _)

lemma padTo_length {w : Nat} {r : List Cell} (h : r.length ≤ w) : (padTo w r).length = w := by
  unfold padTo
  rw [List.length_append, List.length_replicate]
  omega

lemma getD_replicate_nil (n j : Nat) : (List.replicate n ([] : Cell)).getD j [] = [] := by
  induction n generalizing j with
  | zero => rfl
  | succ m ih =>
    cases j with
    | zero => rfl
    | succ k => exact ih k

lemma padTo_getD (w : Nat) (r : List Cell) (j : Nat) : (padTo w r).getD j [] = r.getD j [] := by
  unfold padTo
  by_cases hj : j < r.length
  · exact List.getD_append r _ [] j hj
  · rw [List.getD_append_right r _ [] j (by omega), getD_replicate_nil,
      List.getD_eq_default r [] (by omega)]

lemma toRect_getD (g : List (List Cell)) (b : Nat) (hb : b < g.length) :
    (toRect g).getD b [] = padTo (maxWidth g) (g.getD b []) := by
  unfold toRect
  rw [List.getD_eq_getD_get?, List.get?_map, List.getD_eq_getD_get?,
    List.get?_eq_get hb]
  rfl

lemma norm_nil (nf lo : List Char → List Char) (hnf : nf [] = []) : norm nf lo [] = [] := by
  unfold norm
  rw [hnf]
  rfl

lemma wantedHit_iff (nf lo : List Char → List Char) (wanted : List Cell) (c : Cell) :
    wantedHit nf lo wanted c = true ↔ norm nf lo c ∈ wanted := by
  simp [wantedHit, List.contains]

/-- C5 counterexample: with a raw header row of length 1 and a longer body
row, and the empty canonical key in the allow-list, the body row is not
truncated to the header length: the produced table keeps the extra cell
"y" under the padded empty-labelled header column. -/
theorem process_excel_no_truncation_counterexample :
    process_excel asciiNFKC asciiLower [toCell "a", []]
        [[toCell "A"], [toCell "x", toCell "y"]]
      = .ok ⟨[toCell "A", []], [[toCell "x", toCell "y"]]⟩ ∧
    ¬ (∀ r ∈ [[toCell "x", toCell "y"]],
        r.length ≤ (([[toCell "A"], [toCell "x", toCell "y"]]).getD 0 ([] : List Cell)).length) := by
  exact ⟨rfl, by decide⟩

/-- C5 (amended): pandas rectangularizes the grid — every row, the header
row included, is right-padded with empty-text cells to the maximal row
length and no row is ever truncated; reading a padded row at any position
gives the raw cell there or the empty string beyond the raw length; and
whenever the empty canonical key is not in the allow-list, every selected
column position of any chosen header row lies below the raw length of that
row, so the produced table coincides with pad-or-truncate semantics.
Ragged input causes no index error, dropped row, or misaligned row. -/
theorem toRect_pad_semantics (nf lo : List Char → List Char) (wanted : List Cell)
    (raw : List (List Cell)) (hnf : nf [] = []) (hne : ([] : Cell) ∉ wanted) :
    (∀ row ∈ toRect raw, row.length = maxWidth raw) ∧
    (∀ b, b < raw.length →
      ∀ j ∈ selIdxs nf lo wanted ((toRect raw).getD b []), j < (raw.getD b []).length) ∧
    (∀ (w : Nat) (r : List Cell) (j : Nat), (padTo w r).getD j [] = r.getD j []) := by
  refine ⟨?_, ?_, fun w r j => padTo_getD w r j⟩
  · intro row hrow
    obtain ⟨r, hr, hpad⟩ := List.mem_map.mp hrow
    rw [← hpad]
    exact padTo_length (maxWidth_ge raw r hr)
  · intro b hb j hj
    rw [toRect_getD raw b hb] at hj
    obtain ⟨l, hl, hjf⟩ := List.mem_flatMap.mp hj
    obtain ⟨-, hjq⟩ := List.mem_filter.mp hjf
    have hjl : (padTo (maxWidth raw) (raw.getD b [])).getD j [] = l := by simpa using hjq
    obtain ⟨-, hhit⟩ := List.mem_filter.mp hl
    by_contra hout
    have hnil : (padTo (maxWidth raw) (raw.getD b [])).getD j [] = [] := by
      rw [padTo_getD]
      exact List.getD_eq_default _ [] (by omega)
    rw [hnil] at hjl
    subst hjl
    have : norm nf lo ([] : Cell) ∈ wanted := (wantedHit_iff nf lo wanted []).mp hhit
    rw [norm_nil nf lo hnf] at this
    exact hne this

/-- Witness for C5 at a concrete ragged grid. -/
theorem toRect_pad_semantics_witness :
    (∀ row ∈ toRect [[toCell "A"], [toCell "x", toCell "y"]],
      row.length = maxWidth [[toCell "A"], [toCell "x", toCell "y"]]) ∧
    (∀ b, b < ([[toCell "A"], [toCell "x", toCell "y"]] : List (List Cell)).length →
      ∀ j ∈ selIdxs asciiNFKC asciiLower [toCell "a"]
          ((toRect [[toCell "A"], [toCell "x", toCell "y"]]).getD b []),
        j < (([[toCell "A"], [toCell "x", toCell "y"]] : List (List Cell)).getD b []).length) ∧
    (∀ (w : Nat) (r : List Cell) (j : Nat), (padTo w r).getD j [] = r.getD j []) :=
  toRect_pad_semantics asciiNFKC asciiLower [toCell "a"]
    [[toCell "A"], [toCell "x", toCell "y"]] rfl (by decide)

/-! ### The empty canonical key -/

lemma length_filter_mono {p q : Cell → Bool} (l : List Cell)
    (h : ∀ c, p c = true → q c = true) :
    (l.filter p).length ≤ (l.filter q).length :=
  (List.monotone_filter_right l h).length_le

/-- C10: if some allow-list name normalizes to the empty canonical key,
then blank cells (and any cell rejected by the alphanumeric gate)
normalize to the empty key, every such cell counts toward a row score,
and every header position whose label normalizes to the empty key is
selected into the produced table. -/
theorem empty_key_matches_everywhere (nf lo : List Char → List Char) (wanted : List Cell)
    (hks : ([] : Cell) ∈ wanted) (hnf : nf [] = []) :
    norm nf lo [] = [] ∧
    (∀ s c rest, pyStrip (nf s) = c :: rest → isAsciiAlnum c = false → norm nf lo s = []) ∧
    (∀ row : List Cell,
      (row.filter (fun c => norm nf lo c == ([] : List Char))).length
        ≤ rowScore nf lo wanted row) ∧
    (∀ header : List Cell, ∀ j, j < header.length →
      norm nf lo (header.getD j []) = [] → j ∈ selIdxs nf lo wanted header) := by
  refine ⟨norm_nil nf lo hnf, ?_, ?_, ?_⟩
  · intro s c rest h ha
    unfold norm
    rw [h]
    simp [ha]
  · intro row
    refine length_filter_mono row (fun c hc => ?_)
    have hceq : norm nf lo c = [] := by simpa using hc
    refine (wantedHit_iff nf lo wanted c).mpr ?_
    rw [hceq]
    exact hks
  · intro header j hj hkey
    have hlab : header.getD j [] ∈ header := by
      rw [List.getD_eq_get header [] hj]
      exact List.get_mem header j hj
    refine List.mem_flatMap.mpr ⟨header.getD j [], ?_, ?_⟩
    · refine List.mem_filter.mpr ⟨hlab, ?_⟩
      refine (wantedHit_iff nf lo wanted _).mpr ?_
      rw [hkey]
      exact hks
    · exact List.mem_filter.mpr ⟨List.mem_range.mpr hj, by simp⟩

/-- Witness for C10: with the empty key allowed, a punctuation-only label
normalizes to the empty key and its column is selected. -/
theorem empty_key_matches_everywhere_witness :
    norm asciiNFKC asciiLower [] = [] ∧
    0 ∈ selIdxs asciiNFKC asciiLower [([] : Cell)] [toCell "."] :=
  ⟨(empty_key_matches_everywhere asciiNFKC asciiLower [([] : Cell)] (by decide) rfl).1,
   (empty_key_matches_everywhere asciiNFKC asciiLower [([] : Cell)] (by decide) rfl).2.2.2
     [toCell "."] 0 (by decide) (by decide)⟩

/-! ### Column order and duplicate labels -/

lemma filter_eq_map_filter_range (p : Cell → Bool) (l : List Cell) :
    l.filter p
      = ((List.range l.length).filter (fun j => p (l.getD j []))).map (fun j => l.getD j []) := by
  induction l with
  | nil => rfl
  | cons a t ih =>
    simp only [List.length_cons, List.range_succ_eq_map, List.filter_cons, List.getD_cons_zero,
      List.filter_map, Function.comp_def, List.getD_cons_succ, List.map_cons, List.map_map]
    by_cases ha : p a
    · simp only [ha, if_true, List.map_cons, List.getD_cons_zero, List.map_map,
        Function.comp_def, List.getD_cons_succ]
      rw [ih]
    · simp only [ha, Bool.false_eq_true, if_false, List.map_map, Function.comp_def,
        List.getD_cons_succ]
      rw [ih]

lemma filter_range_eq_singleton (q : Nat → Bool) (j : Nat) :
    ∀ W, j < W → q j = true → (∀ i, i < W → q i = true → i = j) →
      (List.range W).filter q = [j] := by
  intro W
  induction W with
  | zero => omega
  | succ m ih =>
    intro hj hq huniq
    rw [List.range_succ, List.filter_append]
    rcases Nat.lt_succ_iff_lt_or_eq.mp hj with h | h
    · have hqm : q m = false := by
        by_contra hqm
        have hq2 : q m = true := by simpa using hqm
        have := huniq m (by omega) hq2
        omega
      rw [ih h hq (fun i hi hqi => huniq i (by omega) hqi)]
      simp [hqm]
    · subst h
      have hnil : (List.range j).filter q = [] := by
        refine List.filter_eq_nil_iff.mpr (fun i hi => ?_)
        intro hqi
        have hij : i < j := List.mem_range.mp hi
        have := huniq i (by omega) hqi
        omega
      rw [hnil]
      simp [hq]

lemma nodup_map_inj_on {f : Nat → Cell} {l : List Nat} (h : (l.map f).Nodup)
    {i j : Nat} (hi : i ∈ l) (hj : j ∈ l) (hf : f i = f j) : i = j := by
  by_contra hne
  have hp : List.Pairwise (fun a b => f a ≠ f b) l := List.pairwise_map.mp h
  exact hp.forall (fun _ _ hab => hab.symm) hi hj hne hf

/-- C8 counterexample: with the duplicated matching label "A" at positions
0 and 2, the selected column positions are [0, 2, 0, 2] — not the header
row's order restricted to the matched positions [0, 2] — and the produced
table repeats the matched columns. -/
theorem selIdxs_duplicate_order_counterexample :
    process_excel asciiNFKC asciiLower [toCell "a"]
        [[toCell "A", toCell "B", toCell "A"], [toCell "1", toCell "2", toCell "3"]]
      = .ok ⟨[toCell "A", toCell "A", toCell "A", toCell "A"],
             [[toCell "1", toCell "3", toCell "1", toCell "3"]]⟩ ∧
    selIdxs asciiNFKC asciiLower [toCell "a"] [toCell "A", toCell "B", toCell "A"]
      ≠ (List.range ([toCell "A", toCell "B", toCell "A"] : List Cell).length).filter
          (fun j => wantedHit asciiNFKC asciiLower [toCell "a"]
            (([toCell "A", toCell "B", toCell "A"] : List Cell).getD j [])) := by
  exact ⟨rfl, by decide⟩

/-- C8 (amended): whenever the matching labels of the header row are
pairwise distinct, the selected column positions are exactly the matching
positions in ascending header order (never the allow-list order), and the
produced labels are the header labels restricted to those positions in
that order; a duplicated matching label instead repeats its occurrences. -/
theorem selIdxs_order_preserving_of_nodup (nf lo : List Char → List Char)
    (wanted : List Cell) (header : List Cell)
    (hnd : (keepLabels nf lo wanted header).Nodup) :
    selIdxs nf lo wanted header
      = (List.range header.length).filter
          (fun j => wantedHit nf lo wanted (header.getD j [])) ∧
    (selIdxs nf lo wanted header).map (fun j => header.getD j [])
      = keepLabels nf lo wanted header := by
  have hA : keepLabels nf lo wanted header
      = ((List.range header.length).filter
          (fun j => wantedHit nf lo wanted (header.getD j []))).map
            (fun j => header.getD j []) := by
    unfold keepLabels
    exact filter_eq_map_filter_range (wantedHit nf lo wanted) header
  have hmain : selIdxs nf lo wanted header
      = (List.range header.length).filter
          (fun j => wantedHit nf lo wanted (header.getD j [])) := by
    unfold selIdxs
    rw [hA] at hnd ⊢
    rw [List.flatMap_map]
    have hsingle : ∀ j ∈ (List.range header.length).filter
        (fun i => wantedHit nf lo wanted (header.getD i [])),
        (List.range header.length).filter (fun i => header.getD i [] == header.getD j [])
          = [j] := by
      intro j hjmem
      obtain ⟨hjr, hjhit⟩ := List.mem_filter.mp hjmem
      have hjW : j < header.length := List.mem_range.mp hjr
      refine filter_range_eq_singleton _ j header.length hjW (by simp) ?_
      intro i hiW hieq
      have hieq2 : header.getD i [] = header.getD j [] := by simpa using hieq
      have himem : i ∈ (List.range header.length).filter
          (fun i => wantedHit nf lo wanted (header.getD i [])) := by
        refine List.mem_filter.mpr ⟨List.mem_range.mpr hiW, ?_⟩
        rw [hieq2]
        exact hjhit
      exact nodup_map_inj_on hnd himem hjmem hieq2
    rw [List.flatMap_congr hsingle]
    simp
  exact ⟨hmain, by rw [hmain, ← hA]⟩

/-- Witness for C8: the order-preservation example of the spec, header
Bar/PRODUCT/Foo/QTY with allow-list keys product and qty. -/
theorem selIdxs_order_preserving_of_nodup_witness :
    selIdxs asciiNFKC asciiLower [toCell "product", toCell "qty"]
        [toCell "Bar", toCell "PRODUCT", toCell "Foo", toCell "QTY"]
      = (List.range ([toCell "Bar", toCell "PRODUCT", toCell "Foo", toCell "QTY"] :
            List Cell).length).filter
          (fun j => wantedHit asciiNFKC asciiLower [toCell "product", toCell "qty"]
            (([toCell "Bar", toCell "PRODUCT", toCell "Foo", toCell "QTY"] :
              List Cell).getD j [])) ∧
    (selIdxs asciiNFKC asciiLower [toCell "product", toCell "qty"]
        [toCell "Bar", toCell "PRODUCT", toCell "Foo", toCell "QTY"]).map
          (fun j => ([toCell "Bar", toCell "PRODUCT", toCell "Foo", toCell "QTY"] :
            List Cell).getD j [])
      = keepLabels asciiNFKC asciiLower [toCell "product", toCell "qty"]
          [toCell "Bar", toCell "PRODUCT", toCell "Foo", toCell "QTY"] :=
  selIdxs_order_preserving_of_nodup asciiNFKC asciiLower [toCell "product", toCell "qty"]
    [toCell "Bar", toCell "PRODUCT", toCell "Foo", toCell "QTY"] (by decide)

/-! ### The allow-list write path -/

/-- C9 counterexample: starting from an empty store (whose raw names
trivially have pairwise-distinct canonical keys), adding the batch
"Foo, FOO" persists both names, although both normalize to the same
canonical key: `existing_norms` is computed before the batch loop and
never updated inside it. -/
theorem save_batch_duplicate_keys_counterexample :
    save_allowed_columns (addColumns asciiNFKC asciiLower [] (toCell "Foo, FOO")).1
      = [toCell "FOO", toCell "Foo"] ∧
    norm asciiNFKC asciiLower (toCell "FOO") = norm asciiNFKC asciiLower (toCell "Foo") ∧
    toCell "FOO" ≠ toCell "Foo" := by
  exact ⟨rfl, rfl, by decide⟩

/-- C9 (amended): the handler deduplicates against the previously stored
list only — the final list is the stored list followed by the added names,
and every added name's canonical key is absent from the keys of the
previously stored names; two names of one batch sharing a key are however
both appended. -/
theorem addColumns_dedups_against_stored (nf lo : List Char → List Char)
    (stored : List Cell) (input : Cell) :
    (addColumns nf lo stored input).1 = stored ++ (addColumns nf lo stored input).2 ∧
    (∀ a ∈ (addColumns nf lo stored input).2,
      (stored.map (norm nf lo)).contains (norm nf lo a) = false) := by
  have key : ∀ (l : List Cell) (c0 a0 : List Cell),
      ∃ δ : List Cell,
        l.foldl (fun acc col =>
          if (stored.map (norm nf lo)).contains (norm nf lo col) then acc
          else (acc.1 ++ [col], acc.2 ++ [col])) (c0, a0) = (c0 ++ δ, a0 ++ δ) ∧
        ∀ a ∈ δ, (stored.map (norm nf lo)).contains (norm nf lo a) = false := by
    intro l
    induction l with
    | nil =>
      intro c0 a0
      exact ⟨[], by simp, by simp⟩
    | cons c t ih =>
      intro c0 a0
      by_cases hc : (stored.map (norm nf lo)).contains (norm nf lo c) = true
      · obtain ⟨δ, h1, h2⟩ := ih c0 a0
        refine ⟨δ, ?_, h2⟩
        rw [List.foldl_cons, if_pos hc]
        exact h1
      · obtain ⟨δ, h1, h2⟩ := ih (c0 ++ [c]) (a0 ++ [c])
        refine ⟨c :: δ, ?_, ?_⟩
        · rw [List.foldl_cons, if_neg hc, h1]
          simp
        · intro a ha
          rcases List.mem_cons.mp ha with h | h
          · subst h
            simpa using hc
          · exact h2 a h
  obtain ⟨δ, h1, h2⟩ := key (((splitOnComma input).map pyStrip).filter (fun c => !c.isEmpty))
    stored []
  constructor
  · show (addColumns nf lo stored input).1 = stored ++ (addColumns nf lo stored input).2
    unfold addColumns
    rw [h1]
    simp
  · intro a ha
    have ha2 : a ∈ δ := by
      have : (addColumns nf lo stored input).2 = [] ++ δ := by
        unfold addColumns
        rw [h1]
      rw [this] at ha
      simpa using ha
    exact h2 a ha2

/-- Witness for C9: a freshly added name has a key distinct from all
stored keys. -/
theorem addColumns_dedups_against_stored_witness :
    (addColumns asciiNFKC asciiLower [toCell "Bar"] (toCell "Baz")).1
      = [toCell "Bar"] ++ (addColumns asciiNFKC asciiLower [toCell "Bar"] (toCell "Baz")).2 ∧
    ([toCell "Bar"].map (norm asciiNFKC asciiLower)).contains
        (norm asciiNFKC asciiLower (toCell "Baz")) = false :=
  ⟨(addColumns_dedups_against_stored asciiNFKC asciiLower [toCell "Bar"] (toCell "Baz")).1,
   (addColumns_dedups_against_stored asciiNFKC asciiLower [toCell "Bar"] (toCell "Baz")).2
     (toCell "Baz") (by decide)⟩

end ExcelApp
